import Mathlib

/-!
Verification of the susepkg package-version resolution engine.

Python strings are modelled as `List Char`; machine integers as `Nat`/`Int`;
code that can raise an exception returns an `Option` (with `none` for the
raised exception).  Functions keep the names of the Python functions they
embed.  The external `rpm.labelCompare` routine and the Python `re` engine
are not part of the repository; they are modelled from the specification
(each such definition says so in its doc comment).
-/

set_option maxHeartbeats 1000000

namespace Susepkg

/-! ## Generic three-way comparators -/

/-- Lexicographic extension of a three-way comparator to lists. -/
def lexCmp (cmp : α → α → Ordering) : List α → List α → Ordering
  | [], [] => .eq
  | [], _ :: _ => .lt
  | _ :: _, [] => .gt
  | a :: as, b :: bs => (cmp a b).then (lexCmp cmp as bs)

/-- The laws that make a three-way comparator a total preorder. -/
structure LawCmp (cmp : α → α → Ordering) : Prop where
  swap : ∀ a b, cmp a b = (cmp b a).swap
  lt_trans : ∀ {a b c}, cmp a b = .lt → cmp b c = .lt → cmp a c = .lt
  eq_trans : ∀ {a b c}, cmp a b = .eq → cmp b c = .eq → cmp a c = .eq
  eq_lt : ∀ {a b c}, cmp a b = .eq → cmp b c = .lt → cmp a c = .lt
  lt_eq : ∀ {a b c}, cmp a b = .lt → cmp b c = .eq → cmp a c = .lt

/-- Sequencing of two comparators: compare by `cmp₁` on `f`, break ties by
`cmp₂` on `g` (the order of a Python tuple `(f x, g x)`). -/
def thenCmp (cmp₁ : β → β → Ordering) (cmp₂ : γ → γ → Ordering)
    (f : α → β) (g : α → γ) (x y : α) : Ordering :=
  (cmp₁ (f x) (f y)).then (cmp₂ (g x) (g y))

/-- Three-way comparison of two characters by code point. -/
def charCmp (c d : Char) : Ordering :=
  if c < d then .lt else if d < c then .gt else .eq

/-- Ordinal (code-point) comparison of character lists: the model of Python
string comparison and of byte-wise `strcmp` on ASCII data. -/
def strCmp : List Char → List Char → Ordering :=
  lexCmp charCmp

/-! ## RPM version comparison -/

/-- A segment of an rpm version label: a tilde pre-release marker, an
alphabetic run, a numeric run, or the end of the label. -/
inductive RTok where
  | tilde : RTok
  | alpha : List Char → RTok
  | num : Nat → RTok
  | stop : RTok
deriving DecidableEq, Repr

/-- Numeric value of a run of decimal digits (leading zeros stripped by
construction of the value). -/
def digitsToNat (l : List Char) : Nat :=
  l.foldl (fun n c => 10 * n + (c.toNat - 48)) 0

/-- Modelled from the spec: segmentation of one rpm label (§4.1, behaviour of
the external `rpm` library): the label is split into alternating maximal runs
of digits and of letters; every other character only separates runs; a `~` is
its own segment.  The `fuel` argument (always called with `fuel = l.length`)
only makes the recursion structural; a run consumes at least one character,
so the fuel never runs out. -/
def tokenizeF : Nat → List Char → List RTok
  | 0, _ => []
  | _ + 1, [] => []
  | fuel + 1, c :: cs =>
    if c = '~' then .tilde :: tokenizeF fuel cs
    else if c.isDigit then
      .num (digitsToNat (c :: cs.takeWhile Char.isDigit)) ::
        tokenizeF fuel (cs.dropWhile Char.isDigit)
    else if c.isAlpha then
      .alpha (c :: cs.takeWhile Char.isAlpha) ::
        tokenizeF fuel (cs.dropWhile Char.isAlpha)
    else tokenizeF fuel cs

/-- Segment list of an rpm label. -/
def tokenize (l : List Char) : List RTok :=
  tokenizeF l.length l

/-- Modelled from the spec (§4.1): the order on label segments — numeric runs
compare numerically and are newer than alphabetic runs; alphabetic runs
compare by ordinal character value; a missing segment (`stop`) is older than
any alphabetic or numeric segment; a tilde segment sorts before everything,
including the end of the label. -/
def tokCmp : RTok → RTok → Ordering
  | .tilde, .tilde => .eq
  | .tilde, _ => .lt
  | _, .tilde => .gt
  | .stop, .stop => .eq
  | .stop, _ => .lt
  | _, .stop => .gt
  | .num m, .num n => compare m n
  | .num _, .alpha _ => .gt
  | .alpha _, .num _ => .lt
  | .alpha s, .alpha t => strCmp s t

/-- Modelled from the spec (§4.1): comparison of two rpm label strings by the
external `rpm` library.  The segment lists are compared lexicographically; an
explicit `stop` marker makes the end of the label a comparable segment (older
than letters and digits, newer than a tilde pre-release marker). -/
def rpmvercmp (a b : List Char) : Ordering :=
  lexCmp tokCmp (tokenize a ++ [.stop]) (tokenize b ++ [.stop])

/-- The `(version, release)` pair held by the Python `RPMVersion` class
(src/susepkg.py, `RPMVersion.__init__`). -/
structure RPMVersion where
  version : List Char
  release : List Char
deriving DecidableEq, Repr

/-- The `("1", version, release)` triple built by `RPMVersion.__init__`. -/
def RPMVersion.tup (v : RPMVersion) : List (List Char) :=
  ["1".data, v.version, v.release]

/-- Modelled from the spec (§4.1): `rpm.labelCompare` on two
`(epoch, version, release)` triples compares component-wise: epoch first,
then version, then release as tie-break. -/
def labelCompare (a b : List (List Char)) : Ordering :=
  lexCmp rpmvercmp a b

/-- `RPMVersion.__lt__` / `__eq__` of src/susepkg.py as a three-way
comparison: `rpm.labelCompare` applied to the two `("1", version, release)`
triples. -/
def rpmCompare (a b : RPMVersion) : Ordering :=
  labelCompare a.tup b.tup

/-! ## fetch_version's filter / sort / deduplicate loop -/

/-- One raw `{name, version, release}` record returned by a backend. -/
structure RawPkg where
  name : List Char
  version : List Char
  release : List Char
deriving DecidableEq, Repr

/-- The `RPMVersion(info["version"], info["release"])` key built by
`fetch_version` for one record. -/
def RawPkg.key (r : RawPkg) : RPMVersion :=
  ⟨r.version, r.release⟩

/-- The Python sort key `(i["name"], RPMVersion(i["version"], i["release"]))`
of `fetch_version` (src/susepkg.py line 248), as a three-way comparison:
tuple order, name first, rpm version as tie-break. -/
def pkgKeyCmp : RawPkg → RawPkg → Ordering :=
  thenCmp strCmp rpmCompare RawPkg.name RawPkg.key

/-- "may come at or before in an ascending sort": the non-strict order that
Python's stable ascending `sorted` realises for the tuple key. -/
def pkgBefore (i j : RawPkg) : Prop :=
  pkgKeyCmp i j ≠ Ordering.gt

instance : DecidableRel pkgBefore := fun i j => by
  unfold pkgBefore
  infer_instance

/-- Python dict assignment `d[k] = v` on an insertion-ordered dict: replace
the value in place when the key is present, append otherwise. -/
def updAssoc (k : List Char) (v : RPMVersion) :
    List (List Char × RPMVersion) → List (List Char × RPMVersion)
  | [] => [(k, v)]
  | (k', v') :: rest =>
    if k' = k then (k', v) :: rest else (k', v') :: updAssoc k v rest

/-- The `latest` dict of `fetch_version` after the `for` loop over a record
list: successive `latest[info["name"]] = RPMVersion(...)` assignments into an
initially empty dict. -/
def buildLatest (l : List RawPkg) : List (List Char × RPMVersion) :=
  l.foldl (fun d i => updAssoc i.name i.key d) []

/-- The filter / sort / deduplicate core of `fetch_version` (src/susepkg.py
lines 245-250): keep records whose name satisfies the predicate, sort by
`(name, RPMVersion)` ascending with Python's stable `sorted` (modelled by the
stable `List.insertionSort`), then let the last record per name win in the
`latest` dict. -/
def fetch_version_latest (pred : List Char → Bool) (data : List RawPkg) :
    List (List Char × RPMVersion) :=
  buildLatest (List.insertionSort pkgBefore (data.filter fun i => pred i.name))

/-! ## get_regex and the match predicate -/

/-- One compiled regular-expression item of the small subset that
susepkg-generated patterns use. -/
inductive RItem where
  | lit : Char → RItem
  | dot : RItem
  | dotStar : RItem
  | endAnchor : RItem
deriving DecidableEq, Repr

/-- Character comparison under the optional `re.IGNORECASE` flag. -/
def charEqCase (ic : Bool) (c d : Char) : Bool :=
  if ic then c.toLower == d.toLower else c == d

/-- Modelled from the spec (§4.3) and the documented semantics of the
external Python `re` engine: `pattern.match(name)` matches the pattern
against a prefix of `name` starting at position 0 (and only there); a
remaining empty pattern accepts; `$`/`\Z` accepts only at the end of the
string; `.` consumes one character; `.*` consumes any number of
characters. -/
def reMatch (ic : Bool) : List RItem → List Char → Bool
  | [], _ => true
  | RItem.endAnchor :: ps, s => s.isEmpty && reMatch ic ps s
  | RItem.lit c :: ps, s =>
    match s with
    | [] => false
    | d :: ds => charEqCase ic c d && reMatch ic ps ds
  | RItem.dot :: ps, s =>
    match s with
    | [] => false
    | _ :: ds => reMatch ic ps ds
  | RItem.dotStar :: ps, s =>
    (List.range (s.length + 1)).any fun k => reMatch ic ps (s.drop k)

/-- Modelled from the spec: compilation of one character of a literal regex
source string, as Python `re.compile` reads it: `.` is a single-character
wildcard; other regex metacharacters are outside the modelled subset
(`none`); everything else is a literal. -/
def reLit (c : Char) : Option RItem :=
  if c = '.' then some RItem.dot
  else if c = '*' ∨ c = '+' ∨ c = '?' ∨ c = '(' ∨ c = ')' ∨ c = '[' ∨
      c = ']' ∨ c = '^' ∨ c = '$' ∨ c = '\\' ∨ c = '|' then none
  else some (RItem.lit c)

/-- Modelled from the spec: `fnmatch.translate` (Python standard library) on
glob patterns made of plain characters, `?` and `*`: `*` becomes `.*`, `?`
becomes a single-character wildcard, every other character is escaped to a
literal, and the translated pattern is anchored at the end (`\Z`).
Character classes `[...]` are outside the modelled subset (`none`). -/
def fnmatchTranslate (pat : List Char) : Option (List RItem) :=
  if pat.any (fun c => c = '[') then none
  else some
    ((pat.map fun c =>
      if c = '*' then RItem.dotStar
      else if c = '?' then RItem.dot
      else RItem.lit c) ++ [RItem.endAnchor])

/-- A Python list comprehension `[f(x) for x in l]` over a fallible
per-element computation: the first raised exception aborts the whole
comprehension (`none`). -/
def mapOpt (f : α → Option β) : List α → Option (List β)
  | [] => some []
  | a :: as =>
    match f a with
    | none => none
    | some b => (mapOpt f as).map (fun bs => b :: bs)

/-- `get_regex` of src/susepkg.py (lines 292-303) on the modelled regex
subset: with `regex` set the raw pattern is compiled as-is (outside the
modelled subset); with a glob metacharacter (`[`, `?`, `*`) present the
pattern goes through `fnmatch.translate`; otherwise the literal pattern with
`$` appended is compiled. -/
def get_regex (package : List Char) (ignore_case : Bool) (regex : Bool) :
    Option (List RItem) :=
  if regex then none
  else if package.any (fun c => c = '[' ∨ c = '?' ∨ c = '*') then
    fnmatchTranslate package
  else
    (mapOpt reLit package).map (fun items => items ++ [RItem.endAnchor])

/-! ## opensuse_package_info -/

/-- Split a character list at the first occurrence of a separator character:
`some (before, after)` or `none` when the separator is absent. -/
def splitFirst (sep : Char) : List Char → Option (List Char × List Char)
  | [] => none
  | c :: cs =>
    if c = sep then some ([], cs)
    else (splitFirst sep cs).map (fun p => (c :: p.1, p.2))

/-- Python `s.rsplit(sep, 2)`: split at the last at most two occurrences of
the separator, giving one to three pieces. -/
def rsplit2 (sep : Char) (s : List Char) : List (List Char) :=
  match splitFirst sep s.reverse with
  | none => [s]
  | some (a1, rest1) =>
    match splitFirst sep rest1 with
    | none => [rest1.reverse, a1.reverse]
    | some (a2, rest2) => [rest2.reverse, a2.reverse, a1.reverse]

/-- Python `s.split(sep)[0]` for a non-empty separator string: the text
before the first occurrence of `sep` in `s`, or all of `s` when absent. -/
def splitHead (sep : List Char) : List Char → List Char
  | [] => []
  | c :: cs => if sep.isPrefixOf (c :: cs) then [] else c :: splitHead sep cs

/-- `opensuse_package_info` of src/susepkg.py (lines 197-207): version and
release are the last two `-`-separated fields of the filename once the last
two `.`-separated extension components are dropped; unpacking them raises
`ValueError` (`none`) unless the stem splits into exactly three pieces; the
name is the part of the filename before the first `-<version>-<release>`. -/
def opensuse_package_info (file : List Char) : Option RawPkg :=
  let stem := (rsplit2 '.' file).headD []
  match rsplit2 '-' stem with
  | [_, v, r] =>
    some ⟨splitHead (['-'] ++ v ++ ['-'] ++ r) file, v, r⟩
  | _ => none

/-! ## print_version: the concurrent-fetch coordinator -/

/-- `Package` of src/susepkg.py (lines 157-165): one resolved package row. -/
structure Package where
  name : List Char
  product : List Char
  rpm_version : RPMVersion
deriving DecidableEq, Repr

/-- Python `str.removeprefix`. -/
def removePre (pre s : List Char) : List Char :=
  if pre.isPrefixOf s then s.drop pre.length else s

/-- Python `str.removesuffix`. -/
def removeSuf (suf s : List Char) : List Char :=
  if suf.isSuffixOf s then s.take (s.length - suf.length) else s

/-- The packages `fetch_version` returns for one product (src/susepkg.py
lines 252-259): one `Package` per entry of the `latest` dict, with the
community prefix stripped from the product display name. -/
def fetch_version (product : List Char) (pred : List Char → Bool)
    (data : List RawPkg) : List Package :=
  (fetch_version_latest pred data).map fun nv =>
    ⟨nv.1, removePre "openSUSE_".data product, nv.2⟩

/-- What one per-product task delivers to the coordinator: raw records
fetched and parsed successfully, a `RequestException` (transient network
error), or any other exception carrying its message. -/
inductive Outcome where
  | ok : List RawPkg → Outcome
  | transient : Outcome
  | failure : List Char → Outcome
deriving DecidableEq, Repr

/-- The `for future in futures` collection loop of `print_version`
(src/susepkg.py lines 274-281): results are taken in submission order; a
successful task appends its packages; a `RequestException` is swallowed
silently; any other exception appends one `ERROR:` line to the diagnostic
stream; no failure stops the loop. -/
def collectLoop (pred : List Char → Bool) :
    List (List Char × Outcome) → List Package → List (List Char) →
    List Package × List (List Char)
  | [], pkgs, errs => (pkgs, errs)
  | (p, Outcome.ok data) :: rest, pkgs, errs =>
    collectLoop pred rest (pkgs ++ fetch_version p pred data) errs
  | (_, Outcome.transient) :: rest, pkgs, errs =>
    collectLoop pred rest pkgs errs
  | (_, Outcome.failure msg) :: rest, pkgs, errs =>
    collectLoop pred rest pkgs (errs ++ ["ERROR: ".data ++ msg])

/-- `print_version` of src/susepkg.py (lines 262-289), up to the final
column formatting: the worker pool is created with
`max_workers = min(10, len(products))`, which the `ThreadPoolExecutor`
constructor rejects when it is zero (`none`); otherwise one `fetch_version`
task runs per product and the loop above collects the package rows and the
diagnostic lines. -/
def print_version (pred : List Char → Bool)
    (backend : List Char → Outcome) (products : List (List Char)) :
    Option (List Package × List (List Char)) :=
  if min 10 products.length = 0 then none
  else some (collectLoop pred (products.map fun p => (p, backend p)) [] [])

/-- A concrete three-product backend for the claim C5 witness: product "A"
succeeds, "B" hits a transient network error, "C" raises another error. -/
def backendW (p : List Char) : Outcome :=
  if p = "B".data then Outcome.transient
  else if p = "C".data then Outcome.failure "boom".data
  else Outcome.ok [⟨"bash".data, "5.2".data, "1.1".data⟩]

/-! ## main's product selection -/

/-- Python `needle in haystack` on strings: contiguous substring test. -/
def hasSub (needle : List Char) : List Char → Bool
  | [] => needle.isEmpty
  | c :: cs => needle.isPrefixOf (c :: cs) || hasSub needle cs

/-- Python `str.lower` (ASCII case folding). -/
def lowerStr (s : List Char) : List Char :=
  s.map Char.toLower

/-- The product-selection logic of `main` (src/susepkg.py lines 386-408):
the lone special selector "any" empties the selector list; an empty selector
list selects the whole fetched catalog; otherwise each selector resolves by
exact match first, then case-insensitive substring match, and `sys.exit`
(`none`) when neither matches; all matches are concatenated. -/
def main_products (product_args : List (List Char))
    (catalog : List (List Char)) : Option (List (List Char)) :=
  let args := if product_args = ["any".data] then [] else product_args
  if args.length = 0 then some catalog
  else
    (mapOpt (fun abb =>
      let exact := catalog.filter (fun p => p == abb)
      let matched :=
        if exact.isEmpty then
          catalog.filter (fun p => hasSub (lowerStr abb) (lowerStr p))
        else exact
      if matched.isEmpty then none else some matched) args).map List.flatten

/-! ## product_string -/

/-- Python `int` of a single-character string: the decimal value for a
digit, `ValueError` (`none`) otherwise. -/
def charToInt (c : Char) : Option Nat :=
  if c.isDigit then some (c.toNat - 48) else none

/-- Value of a non-empty all-digit run, `none` otherwise. -/
def digitsVal (t : List Char) : Option Nat :=
  if t.isEmpty then none
  else if t.all Char.isDigit then some (digitsToNat t) else none

/-- Modelled from the documented behaviour of Python `int(str)`: an optional
sign followed by a non-empty digit run (surrounding whitespace and
underscore grouping are not modelled; no claim exercises them); anything
else raises `ValueError` (`none`). -/
def pyInt : List Char → Option Int
  | '+' :: t => (digitsVal t).map (fun n => (n : Int))
  | '-' :: t => (digitsVal t).map (fun n => -(n : Int))
  | t => (digitsVal t).map (fun n => (n : Int))

/-- `product_string` of src/susepkg.py (lines 317-335).  The `try` block
covers `string.split("/", 1)[1]` and `int(version[0])` and catches only
`IndexError`: a missing "/" or an empty version suffix falls back to
passthrough; `int` of a non-digit character raises `ValueError`, which is
never caught (`none`); `version.split(".", 1)[1]` sits outside the `try`,
so a version with no "." raises an uncaught `IndexError` (`none`), and a
non-numeric minor also raises (`none`). -/
def product_string (s : List Char) : Option (List Char) :=
  if s == "Leap".data || s == "Leap_Micro".data || s == "Tumbleweed".data then
    some ("openSUSE_".data ++ s)
  else if !(hasSub "Micro".data s) || hasSub "Leap".data s then
    some s
  else
    match splitFirst '/' s with
    | none => some s
    | some (_, version) =>
      match version with
      | [] => some s
      | c :: _ =>
        match charToInt c with
        | none => none
        | some d =>
          if d > 5 then some ("SL-Micro/".data ++ version)
          else
            match splitFirst '.' version with
            | none => none
            | some (_, minorStr) =>
              match pyInt minorStr with
              | none => none
              | some sub =>
                if sub > 2 then some ("SLE-Micro/".data ++ version)
                else some ("SUSE-MicroOS/".data ++ version)

/-! ## Product.get_products -/

/-- One record of the enterprise product-list endpoint. -/
structure SuseRec where
  identifier : List Char
  architecture : List Char
  id : Nat
deriving DecidableEq, Repr

/-- One processed record of the community distribution list
(`_get_opensuse_products`): name with spaces replaced and version. -/
structure OSRec where
  name : List Char
  version : List Char
deriving DecidableEq, Repr

/-- The `PRODUCTS` prefix filter tuple of src/susepkg.py (line 32). -/
def PRODUCTS : List (List Char) :=
  ["SLES/".data, "SLE-Micro/".data, "SL-Micro/".data, "SUSE-MicroOS/".data]

/-- The `EOL` exclusion set of src/susepkg.py (lines 33-45). -/
def EOL : List (List Char) :=
  ["SLES/12".data, "SLES/12.1".data, "SLES/12.2".data, "SLES/12.3".data,
   "SLES/12.4".data, "SLES/15".data, "SLES/15.1".data, "SLES/15.2".data,
   "SLES/15.3".data, "SUSE-MicroOS/5.0".data, "SUSE-MicroOS/5.1".data]

/-- One alternative of the micro-family regular expression of
`product_sort_key`: the family name, "/", a digit run, ".", a digit run
(the name may continue after the minor digits — the pattern is not
end-anchored). -/
def microTry (pre : List Char) (ord : Nat) (s : List Char) :
    Option (Nat × Nat × Nat) :=
  if (pre ++ ['/']).isPrefixOf s then
    let rest := s.drop (pre.length + 1)
    let maj := rest.takeWhile Char.isDigit
    if maj.isEmpty then none
    else
      match rest.drop maj.length with
      | '.' :: rest3 =>
        let minor := rest3.takeWhile Char.isDigit
        if minor.isEmpty then none
        else some (ord, digitsToNat maj, digitsToNat minor)
      | _ => none
  else none

/-- Modelled from the spec and the semantics of the external `re` engine:
`re.match(r"(SUSE-MicroOS|SLE-Micro|SL-Micro)/(\d+)\.(\d+)", name)` in
`product_sort_key` (src/susepkg.py lines 99-110), with the family order
SUSE-MicroOS 1, SLE-Micro 2, SL-Micro 3 and the numeric major and minor. -/
def microKey (s : List Char) : Option (Nat × Nat × Nat) :=
  (microTry "SUSE-MicroOS".data 1 s).orElse fun _ =>
    (microTry "SLE-Micro".data 2 s).orElse fun _ =>
      microTry "SL-Micro".data 3 s

/-- The sort key of `product_sort_key`: `(0, name)` for products outside the
micro families, `(1, order, major, minor)` for micro products. -/
def prodKey (s : List Char) : List Char ⊕ (Nat × Nat × Nat) :=
  match microKey s with
  | none => Sum.inl s
  | some k => Sum.inr k

/-- Lexicographic comparison of `(order, major, minor)` triples. -/
def tripleCmp : (Nat × Nat × Nat) → (Nat × Nat × Nat) → Ordering :=
  thenCmp (fun a b : Nat => compare a b)
    (thenCmp (fun a b : Nat => compare a b) (fun a b : Nat => compare a b)
      Prod.fst Prod.snd)
    Prod.fst Prod.snd

/-- Python tuple comparison of the two sort-key shapes: every `(0, name)`
tuple precedes every `(1, order, major, minor)` tuple; within a group the
payloads compare componentwise. -/
def sumCmp : (List Char ⊕ (Nat × Nat × Nat)) →
    (List Char ⊕ (Nat × Nat × Nat)) → Ordering
  | .inl a, .inl b => strCmp a b
  | .inl _, .inr _ => .lt
  | .inr _, .inl _ => .gt
  | .inr a, .inr b => tripleCmp a b

/-- Three-way comparison of two display names by `product_sort_key`. -/
def prodKeyCmp (a b : List Char) : Ordering :=
  sumCmp (prodKey a) (prodKey b)

/-- "may come at or before" for the enterprise sort of `get_products`. -/
def prodBefore (a b : List Char) : Prop :=
  prodKeyCmp a b ≠ Ordering.gt

instance : DecidableRel prodBefore := fun a b => by
  unfold prodBefore
  infer_instance

/-- "may come at or before" for the community sort (plain string order). -/
def strBefore (a b : List Char) : Prop :=
  strCmp a b ≠ Ordering.gt

instance : DecidableRel strBefore := fun a b => by
  unfold strBefore
  infer_instance

/-- `Product.get_products` of src/susepkg.py (lines 93-131), at the level of
display names: enterprise records are filtered to the requested
architecture, the recognized product-family prefixes and the non-EOL names,
their arch suffix is stripped, and the list is sorted by `product_sort_key`
with Python's stable sort (modelled by the stable `List.insertionSort`);
the community products (`name/version`, Tumbleweed bare) are appended,
sorted by display name. -/
def get_products (suse : List SuseRec) (opensuse : List OSRec)
    (arch : List Char) : List (List Char) :=
  List.insertionSort prodBefore
    ((suse.filter fun p =>
        p.architecture == arch
        && PRODUCTS.any (fun pre => pre.isPrefixOf p.identifier)
        && !(EOL.contains (removeSuf (['/'] ++ arch) p.identifier))).map
      fun p => removeSuf (['/'] ++ arch) p.identifier)
  ++ List.insertionSort strBefore
    (opensuse.map fun p =>
      if p.name == "openSUSE_Tumbleweed".data then p.name
      else p.name ++ ['/'] ++ p.version)

/-! ## Properties and claims -/

theorem LawCmp.refl {cmp : α → α → Ordering} (h : LawCmp cmp) (a : α) :
    cmp a a = .eq := by
  have hs := h.swap a a
  cases hc : cmp a a with
  | lt => rw [hc] at hs; exact absurd hs (by decide)
  | gt => rw [hc] at hs; exact absurd hs (by decide)
  | eq => rfl

theorem LawCmp.gt_iff {cmp : α → α → Ordering} (h : LawCmp cmp) (a b : α) :
    cmp a b = .gt ↔ cmp b a = .lt := by
  rw [h.swap a b]
  cases cmp b a <;> simp [Ordering.swap]

theorem LawCmp.eq_symm {cmp : α → α → Ordering} (h : LawCmp cmp) {a b : α}
    (hab : cmp a b = .eq) : cmp b a = .eq := by
  have hs := h.swap a b
  rw [hab] at hs
  cases hc : cmp b a <;> rw [hc] at hs <;> first | rfl | exact absurd hs (by decide)

theorem LawCmp.le_trans {cmp : α → α → Ordering} (h : LawCmp cmp) {a b c : α}
    (hab : cmp a b ≠ .gt) (hbc : cmp b c ≠ .gt) : cmp a c ≠ .gt := by
  cases h1 : cmp a b with
  | gt => exact absurd h1 hab
  | lt =>
    cases h2 : cmp b c with
    | gt => exact absurd h2 hbc
    | lt => simp [h.lt_trans h1 h2]
    | eq => simp [h.lt_eq h1 h2]
  | eq =>
    cases h2 : cmp b c with
    | gt => exact absurd h2 hbc
    | lt => simp [h.eq_lt h1 h2]
    | eq => simp [h.eq_trans h1 h2]

theorem LawCmp.le_total {cmp : α → α → Ordering} (h : LawCmp cmp) (a b : α) :
    cmp a b ≠ .gt ∨ cmp b a ≠ .gt := by
  cases hc : cmp a b with
  | lt => left; simp
  | eq => left; simp
  | gt =>
    right
    have := (h.gt_iff a b).mp hc
    simp [this]

theorem LawCmp.comap {cmp : β → β → Ordering} (h : LawCmp cmp) (f : α → β) :
    LawCmp (fun x y => cmp (f x) (f y)) where
  swap a b := h.swap (f a) (f b)
  lt_trans h1 h2 := h.lt_trans h1 h2
  eq_trans h1 h2 := h.eq_trans h1 h2
  eq_lt h1 h2 := h.eq_lt h1 h2
  lt_eq h1 h2 := h.lt_eq h1 h2

theorem lexCmp_swap {cmp : α → α → Ordering} (h : LawCmp cmp) :
    ∀ x y, lexCmp cmp x y = (lexCmp cmp y x).swap := by
  intro x
  induction x with
  | nil => intro y; cases y <;> simp [lexCmp, Ordering.swap]
  | cons a as ih =>
    intro y
    cases y with
    | nil => simp [lexCmp, Ordering.swap]
    | cons b bs =>
      simp only [lexCmp]
      rw [h.swap a b, ih bs]
      cases cmp b a <;> cases lexCmp cmp bs as <;> simp [Ordering.swap, Ordering.then]

theorem lexCmp_law {cmp : α → α → Ordering} (h : LawCmp cmp) :
    LawCmp (lexCmp cmp) := by
  have hlt : ∀ a : List α, ∀ {b c}, lexCmp cmp a b = .lt → lexCmp cmp b c = .lt →
      lexCmp cmp a c = .lt := by
    intro a
    induction a with
    | nil =>
      intro b c h1 h2
      cases b with
      | nil => simp [lexCmp] at h1
      | cons y ys =>
        cases c with
        | nil => simp [lexCmp] at h2
        | cons z zs => simp [lexCmp]
    | cons x xs ih =>
      intro b c h1 h2
      cases b with
      | nil => simp [lexCmp] at h1
      | cons y ys =>
        cases c with
        | nil => simp [lexCmp] at h2
        | cons z zs =>
          simp only [lexCmp, Ordering.then_eq_lt] at h1 h2 ⊢
          rcases h1 with h1 | ⟨h1e, h1r⟩
          · rcases h2 with h2 | ⟨h2e, h2r⟩
            · exact Or.inl (h.lt_trans h1 h2)
            · exact Or.inl (h.lt_eq h1 h2e)
          · rcases h2 with h2 | ⟨h2e, h2r⟩
            · exact Or.inl (h.eq_lt h1e h2)
            · exact Or.inr ⟨h.eq_trans h1e h2e, ih h1r h2r⟩
  have heq : ∀ a : List α, ∀ {b c}, lexCmp cmp a b = .eq → lexCmp cmp b c = .eq →
      lexCmp cmp a c = .eq := by
    intro a
    induction a with
    | nil =>
      intro b c h1 h2
      cases b with
      | nil =>
        cases c with
        | nil => simp [lexCmp]
        | cons z zs => simp [lexCmp] at h2
      | cons y ys => simp [lexCmp] at h1
    | cons x xs ih =>
      intro b c h1 h2
      cases b with
      | nil => simp [lexCmp] at h1
      | cons y ys =>
        cases c with
        | nil => simp [lexCmp] at h2
        | cons z zs =>
          simp only [lexCmp, Ordering.then_eq_eq] at h1 h2 ⊢
          exact ⟨h.eq_trans h1.1 h2.1, ih h1.2 h2.2⟩
  have heqlt : ∀ a : List α, ∀ {b c}, lexCmp cmp a b = .eq → lexCmp cmp b c = .lt →
      lexCmp cmp a c = .lt := by
    intro a
    induction a with
    | nil =>
      intro b c h1 h2
      cases b with
      | nil =>
        cases c with
        | nil => simp [lexCmp] at h2
        | cons z zs => simp [lexCmp]
      | cons y ys => simp [lexCmp] at h1
    | cons x xs ih =>
      intro b c h1 h2
      cases b with
      | nil => simp [lexCmp] at h1
      | cons y ys =>
        cases c with
        | nil => simp [lexCmp] at h2
        | cons z zs =>
          simp only [lexCmp, Ordering.then_eq_eq, Ordering.then_eq_lt] at h1 h2 ⊢
          rcases h2 with h2 | ⟨h2e, h2r⟩
          · exact Or.inl (h.eq_lt h1.1 h2)
          · exact Or.inr ⟨h.eq_trans h1.1 h2e, ih h1.2 h2r⟩
  have hlteq : ∀ a : List α, ∀ {b c}, lexCmp cmp a b = .lt → lexCmp cmp b c = .eq →
      lexCmp cmp a c = .lt := by
    intro a
    induction a with
    | nil =>
      intro b c h1 h2
      cases b with
      | nil => simp [lexCmp] at h1
      | cons y ys =>
        cases c with
        | nil => simp [lexCmp] at h2
        | cons z zs => simp [lexCmp]
    | cons x xs ih =>
      intro b c h1 h2
      cases b with
      | nil => simp [lexCmp] at h1
      | cons y ys =>
        cases c with
        | nil => simp [lexCmp] at h2
        | cons z zs =>
          simp only [lexCmp, Ordering.then_eq_eq, Ordering.then_eq_lt] at h1 h2 ⊢
          rcases h1 with h1 | ⟨h1e, h1r⟩
          · exact Or.inl (h.lt_eq h1 h2.1)
          · exact Or.inr ⟨h.eq_trans h1e h2.1, ih h1r h2.2⟩
  exact ⟨lexCmp_swap h, fun {a b c} => hlt a, fun {a b c} => heq a,
    fun {a b c} => heqlt a, fun {a b c} => hlteq a⟩

theorem lexCmp_eq_iff {cmp : α → α → Ordering}
    (h : ∀ a b, cmp a b = .eq ↔ a = b) :
    ∀ x y, lexCmp cmp x y = .eq ↔ x = y := by
  intro x
  induction x with
  | nil => intro y; cases y <;> simp [lexCmp]
  | cons a as ih =>
    intro y
    cases y with
    | nil => simp [lexCmp]
    | cons b bs =>
      simp only [lexCmp, Ordering.then_eq_eq, List.cons.injEq]
      rw [h a b, ih bs]

theorem thenCmp_law {cmp₁ : β → β → Ordering} {cmp₂ : γ → γ → Ordering}
    (h₁ : LawCmp cmp₁) (h₂ : LawCmp cmp₂) (f : α → β) (g : α → γ) :
    LawCmp (thenCmp cmp₁ cmp₂ f g) := by
  constructor
  · intro a b
    simp only [thenCmp]
    rw [h₁.swap (f a) (f b), h₂.swap (g a) (g b)]
    cases cmp₁ (f b) (f a) <;> cases cmp₂ (g b) (g a) <;> rfl
  · intro a b c h1 h2
    simp only [thenCmp, Ordering.then_eq_lt] at h1 h2 ⊢
    rcases h1 with h1 | ⟨h1e, h1r⟩ <;> rcases h2 with h2 | ⟨h2e, h2r⟩
    · exact Or.inl (h₁.lt_trans h1 h2)
    · exact Or.inl (h₁.lt_eq h1 h2e)
    · exact Or.inl (h₁.eq_lt h1e h2)
    · exact Or.inr ⟨h₁.eq_trans h1e h2e, h₂.lt_trans h1r h2r⟩
  · intro a b c h1 h2
    simp only [thenCmp, Ordering.then_eq_eq] at h1 h2 ⊢
    exact ⟨h₁.eq_trans h1.1 h2.1, h₂.eq_trans h1.2 h2.2⟩
  · intro a b c h1 h2
    simp only [thenCmp, Ordering.then_eq_eq, Ordering.then_eq_lt] at h1 h2 ⊢
    rcases h2 with h2 | ⟨h2e, h2r⟩
    · exact Or.inl (h₁.eq_lt h1.1 h2)
    · exact Or.inr ⟨h₁.eq_trans h1.1 h2e, h₂.eq_lt h1.2 h2r⟩
  · intro a b c h1 h2
    simp only [thenCmp, Ordering.then_eq_eq, Ordering.then_eq_lt] at h1 h2 ⊢
    rcases h1 with h1 | ⟨h1e, h1r⟩
    · exact Or.inl (h₁.lt_eq h1 h2.1)
    · exact Or.inr ⟨h₁.eq_trans h1e h2.1, h₂.lt_eq h1r h2.2⟩

theorem charCmp_eq_iff (c d : Char) : charCmp c d = .eq ↔ c = d := by
  unfold charCmp
  split
  · rename_i h
    constructor
    · intro hh; exact absurd hh (by decide)
    · rintro ⟨⟩; exact absurd h (lt_irrefl c)
  · split
    · rename_i h1 h2
      constructor
      · intro hh; exact absurd hh (by decide)
      · rintro ⟨⟩; exact absurd h2 (lt_irrefl c)
    · rename_i h1 h2
      simp only [true_iff]
      exact le_antisymm (not_lt.mp h2) (not_lt.mp h1)

theorem charCmp_law : LawCmp charCmp := by
  have key : ∀ c d : Char, charCmp c d = .lt ↔ c < d := by
    intro c d
    unfold charCmp
    split
    · rename_i h; simp [h]
    · split <;> simp_all
  constructor
  · intro a b
    unfold charCmp
    rcases lt_trichotomy a b with h | h | h
    · simp [h, not_lt.mpr (le_of_lt h), Ordering.swap]
    · subst h; simp [lt_irrefl, Ordering.swap]
    · simp [h, not_lt.mpr (le_of_lt h), Ordering.swap]
  · intro a b c h1 h2
    exact (key a c).mpr (lt_trans ((key a b).mp h1) ((key b c).mp h2))
  · intro a b c h1 h2
    rw [(charCmp_eq_iff a b).mp h1, (charCmp_eq_iff b c).mp h2]
    exact (charCmp_eq_iff c c).mpr rfl
  · intro a b c h1 h2
    rw [(charCmp_eq_iff a b).mp h1]
    exact h2
  · intro a b c h1 h2
    rw [← (charCmp_eq_iff b c).mp h2]
    exact h1

theorem strCmp_law : LawCmp strCmp := lexCmp_law charCmp_law

theorem strCmp_eq_iff (s t : List Char) : strCmp s t = .eq ↔ s = t :=
  lexCmp_eq_iff charCmp_eq_iff s t

theorem natCmp_law : LawCmp (fun a b : Nat => compare a b) := by
  constructor
  · intro a b
    rw [← Nat.compare_swap]
  · intro a b c h1 h2
    exact Nat.compare_eq_lt.mpr
      (Nat.lt_trans (Nat.compare_eq_lt.mp h1) (Nat.compare_eq_lt.mp h2))
  · intro a b c h1 h2
    exact Nat.compare_eq_eq.mpr
      ((Nat.compare_eq_eq.mp h1).trans (Nat.compare_eq_eq.mp h2))
  · intro a b c h1 h2
    rw [Nat.compare_eq_eq.mp h1]
    exact h2
  · intro a b c h1 h2
    rw [← Nat.compare_eq_eq.mp h2]
    exact h1

theorem tokCmp_law : LawCmp tokCmp := by
  have hn := natCmp_law
  have hs := strCmp_law
  constructor
  · intro a b
    cases a <;> cases b <;>
      first
        | rfl
        | exact hn.swap _ _
        | exact hs.swap _ _
  · intro a b c h1 h2
    cases a <;> cases b <;> cases c <;>
      first
        | rfl
        | exact hn.lt_trans h1 h2
        | exact hs.lt_trans h1 h2
        | exact Ordering.noConfusion h1
        | exact Ordering.noConfusion h2
  · intro a b c h1 h2
    cases a <;> cases b <;> cases c <;>
      first
        | rfl
        | exact hn.eq_trans h1 h2
        | exact hs.eq_trans h1 h2
        | exact Ordering.noConfusion h1
        | exact Ordering.noConfusion h2
  · intro a b c h1 h2
    cases a <;> cases b <;> cases c <;>
      first
        | rfl
        | exact hn.eq_lt h1 h2
        | exact hs.eq_lt h1 h2
        | exact Ordering.noConfusion h1
        | exact Ordering.noConfusion h2
  · intro a b c h1 h2
    cases a <;> cases b <;> cases c <;>
      first
        | rfl
        | exact hn.lt_eq h1 h2
        | exact hs.lt_eq h1 h2
        | exact Ordering.noConfusion h1
        | exact Ordering.noConfusion h2

theorem rpmvercmp_law : LawCmp rpmvercmp :=
  (lexCmp_law tokCmp_law).comap (fun s => tokenize s ++ [RTok.stop])

theorem rpmCompare_law : LawCmp rpmCompare :=
  ((lexCmp_law rpmvercmp_law).comap RPMVersion.tup)

/-- Claim C2: VersionKey comparison (RPMVersion with the fixed epoch
component "1", ordering by rpm label compare on version then release) is a
strict total order: for every two keys exactly one of less, equal, greater
holds; compare(a,b) is the inverse of compare(b,a); and it is transitive,
e.g. 1.2-3 < 1.10-1 < 1.10-2 (numeric runs compare numerically, not
lexically). -/
theorem claim_C2 :
    (∀ a b : RPMVersion,
      (rpmCompare a b = .lt ∧ rpmCompare a b ≠ .eq ∧ rpmCompare a b ≠ .gt) ∨
      (rpmCompare a b ≠ .lt ∧ rpmCompare a b = .eq ∧ rpmCompare a b ≠ .gt) ∨
      (rpmCompare a b ≠ .lt ∧ rpmCompare a b ≠ .eq ∧ rpmCompare a b = .gt))
    ∧ (∀ a b : RPMVersion, rpmCompare a b = (rpmCompare b a).swap)
    ∧ (∀ a b c : RPMVersion, rpmCompare a b = .lt → rpmCompare b c = .lt →
        rpmCompare a c = .lt)
    ∧ rpmCompare ⟨"1.2".data, "3".data⟩ ⟨"1.10".data, "1".data⟩ = .lt
    ∧ rpmCompare ⟨"1.10".data, "1".data⟩ ⟨"1.10".data, "2".data⟩ = .lt
    ∧ rpmCompare ⟨"1.2".data, "3".data⟩ ⟨"1.10".data, "2".data⟩ = .lt := by
  refine ⟨?_, rpmCompare_law.swap,
    fun a b c h1 h2 => rpmCompare_law.lt_trans h1 h2,
    by decide, by decide, by decide⟩
  intro a b
  cases h : rpmCompare a b
  · exact Or.inl ⟨rfl, by simp, by simp⟩
  · exact Or.inr (Or.inl ⟨by simp, rfl, by simp⟩)
  · exact Or.inr (Or.inr ⟨by simp, by simp, rfl⟩)

/-- Witness for claim C2: its transitivity component applied at the concrete
versions 1.2-3 < 1.10-1 < 1.10-2. -/
theorem claim_C2_witness :
    rpmCompare ⟨"1.2".data, "3".data⟩ ⟨"1.10".data, "2".data⟩ = .lt :=
  claim_C2.2.2.1 ⟨"1.2".data, "3".data⟩ ⟨"1.10".data, "1".data⟩
    ⟨"1.10".data, "2".data⟩ (by decide) (by decide)

theorem pkgKeyCmp_law : LawCmp pkgKeyCmp :=
  thenCmp_law strCmp_law rpmCompare_law RawPkg.name RawPkg.key

theorem updAssoc_keys (k : List Char) (v : RPMVersion) :
    ∀ d : List (List Char × RPMVersion),
      (updAssoc k v d).map Prod.fst =
        if k ∈ d.map Prod.fst then d.map Prod.fst else d.map Prod.fst ++ [k]
  | [] => by simp [updAssoc]
  | (k', v') :: rest => by
    by_cases h : k' = k
    · subst h
      have e1 : updAssoc k' v ((k', v') :: rest) = (k', v) :: rest := by
        simp [updAssoc]
      rw [e1]
      simp only [List.map_cons]
      rw [if_pos (List.mem_cons_self _ _)]
    · have e2 : updAssoc k v ((k', v') :: rest) =
          (k', v') :: updAssoc k v rest := by
        simp [updAssoc, h]
      rw [e2]
      have ih := updAssoc_keys k v rest
      simp only [List.map_cons, ih]
      by_cases h2 : k ∈ rest.map Prod.fst
      · simp [h2, Ne.symm h]
      · simp [h2, Ne.symm h]

theorem updAssoc_nodup {d : List (List Char × RPMVersion)}
    (hd : (d.map Prod.fst).Nodup) (k : List Char) (v : RPMVersion) :
    ((updAssoc k v d).map Prod.fst).Nodup := by
  rw [updAssoc_keys]
  split
  · exact hd
  · rename_i hk
    rw [List.nodup_append]
    exact ⟨hd, List.nodup_singleton k, by
      intro a ha hak
      simp only [List.mem_singleton] at hak
      subst hak
      exact hk ha⟩

theorem updAssoc_mem {d : List (List Char × RPMVersion)}
    (hd : (d.map Prod.fst).Nodup) (k : List Char) (kv : RPMVersion)
    (n : List Char) (v : RPMVersion) :
    ((n, v) ∈ updAssoc k kv d) ↔
      ((n = k ∧ v = kv) ∨ ((n, v) ∈ d ∧ n ≠ k)) := by
  induction d with
  | nil => simp [updAssoc]
  | cons p rest ih =>
    obtain ⟨k', v'⟩ := p
    simp only [List.map_cons, List.nodup_cons] at hd
    have hrest : ∀ w : RPMVersion, (k', w) ∈ rest → False := fun w hw =>
      hd.1 (List.mem_map_of_mem Prod.fst hw)
    by_cases h : k' = k
    · subst h
      have e1 : updAssoc k' kv ((k', v') :: rest) = (k', kv) :: rest := by
        simp [updAssoc]
      rw [e1]
      simp only [List.mem_cons, Prod.mk.injEq]
      constructor
      · rintro (⟨hn, hv⟩ | hmem)
        · exact Or.inl ⟨hn, hv⟩
        · refine Or.inr ⟨Or.inr hmem, ?_⟩
          rintro rfl
          exact hrest v hmem
      · rintro (⟨hn, hv⟩ | ⟨⟨hn, hv⟩ | hmem, hne⟩)
        · exact Or.inl ⟨hn, hv⟩
        · exact absurd hn hne
        · exact Or.inr hmem
    · have e2 : updAssoc k kv ((k', v') :: rest) =
          (k', v') :: updAssoc k kv rest := by
        simp [updAssoc, h]
      rw [e2]
      simp only [List.mem_cons, Prod.mk.injEq, ih hd.2]
      constructor
      · rintro (⟨hn, hv⟩ | ⟨hn, hv⟩ | ⟨hmem, hne⟩)
        · exact Or.inr ⟨Or.inl ⟨hn, hv⟩, fun hh => h (hn.symm.trans hh)⟩
        · exact Or.inl ⟨hn, hv⟩
        · exact Or.inr ⟨Or.inr hmem, hne⟩
      · rintro (⟨hn, hv⟩ | ⟨⟨hn, hv⟩ | hmem, hne⟩)
        · exact Or.inr (Or.inl ⟨hn, hv⟩)
        · exact Or.inl ⟨hn, hv⟩
        · exact Or.inr (Or.inr ⟨hmem, hne⟩)

theorem buildLatest_snoc (l : List RawPkg) (x : RawPkg) :
    buildLatest (l ++ [x]) = updAssoc x.name x.key (buildLatest l) := by
  simp [buildLatest, List.foldl_append]

theorem buildLatest_nodup (l : List RawPkg) :
    ((buildLatest l).map Prod.fst).Nodup := by
  induction l using List.reverseRecOn with
  | nil => simp [buildLatest]
  | append_singleton l x ih =>
    rw [buildLatest_snoc]
    exact updAssoc_nodup ih _ _

theorem buildLatest_names (l : List RawPkg) (n : List Char) :
    (∃ v, (n, v) ∈ buildLatest l) ↔ ∃ r ∈ l, r.name = n := by
  induction l using List.reverseRecOn with
  | nil => simp [buildLatest]
  | append_singleton l x ih =>
    rw [buildLatest_snoc]
    constructor
    · rintro ⟨v, hv⟩
      rcases (updAssoc_mem (buildLatest_nodup l) _ _ _ _).mp hv with
        ⟨hn, _⟩ | ⟨hmem, _⟩
      · exact ⟨x, by simp, hn.symm⟩
      · obtain ⟨r, hr, hrn⟩ := ih.mp ⟨v, hmem⟩
        exact ⟨r, by simp [hr], hrn⟩
    · rintro ⟨r, hr, hrn⟩
      by_cases hx : n = x.name
      · exact ⟨x.key,
          (updAssoc_mem (buildLatest_nodup l) _ _ _ _).mpr (Or.inl ⟨hx, rfl⟩)⟩
      · have hrl : r ∈ l := by
          rcases List.mem_append.mp hr with h | h
          · exact h
          · simp only [List.mem_singleton] at h
            subst h
            exact absurd hrn.symm hx
        obtain ⟨v, hv⟩ := ih.mpr ⟨r, hrl, hrn⟩
        exact ⟨v,
          (updAssoc_mem (buildLatest_nodup l) _ _ _ _).mpr (Or.inr ⟨hv, hx⟩)⟩

theorem buildLatest_max (l : List RawPkg) (hs : l.Pairwise pkgBefore)
    (n : List Char) (v : RPMVersion) (hv : (n, v) ∈ buildLatest l) :
    (∃ r ∈ l, r.name = n ∧ r.key = v)
    ∧ ∀ r ∈ l, r.name = n → rpmCompare r.key v ≠ .gt := by
  induction l using List.reverseRecOn with
  | nil => simp [buildLatest] at hv
  | append_singleton l x ih =>
    rw [buildLatest_snoc] at hv
    have hsl : l.Pairwise pkgBefore := (List.pairwise_append.mp hs).1
    have hlx : ∀ r ∈ l, pkgBefore r x := by
      intro r hr
      exact (List.pairwise_append.mp hs).2.2 r hr x (by simp)
    rcases (updAssoc_mem (buildLatest_nodup l) _ _ _ _).mp hv with
      ⟨hn, hveq⟩ | ⟨hmem, hne⟩
    · subst hveq
      refine ⟨⟨x, by simp, hn.symm, rfl⟩, ?_⟩
      intro r hr hrn
      rcases List.mem_append.mp hr with hrl | hrx
      · have hb := hlx r hrl
        have hnames : strCmp r.name x.name = .eq :=
          (strCmp_eq_iff _ _).mpr (hrn.trans hn)
        unfold pkgBefore pkgKeyCmp thenCmp at hb
        rw [hnames] at hb
        exact hb
      · simp only [List.mem_singleton] at hrx
        subst hrx
        simp [rpmCompare_law.refl]
    · obtain ⟨⟨r0, hr0, hr0n, hr0k⟩, hmax⟩ := ih hsl hmem
      refine ⟨⟨r0, by simp [hr0], hr0n, hr0k⟩, ?_⟩
      intro r hr hrn
      rcases List.mem_append.mp hr with hrl | hrx
      · exact hmax r hrl hrn
      · simp only [List.mem_singleton] at hrx
        subst hrx
        exact absurd hrn.symm hne

theorem fetch_version_spec (pred : List Char → Bool) (data : List RawPkg) :
    ((fetch_version_latest pred data).map Prod.fst).Nodup
    ∧ (∀ n, (∃ v, (n, v) ∈ fetch_version_latest pred data) ↔
        ∃ r ∈ data, pred r.name = true ∧ r.name = n)
    ∧ (∀ n v, (n, v) ∈ fetch_version_latest pred data →
        (∃ r ∈ data, pred r.name = true ∧ r.name = n ∧ r.key = v)
        ∧ ∀ r ∈ data, pred r.name = true → r.name = n →
            rpmCompare r.key v ≠ .gt) := by
  haveI : IsTotal RawPkg pkgBefore := ⟨fun a b => pkgKeyCmp_law.le_total a b⟩
  haveI : IsTrans RawPkg pkgBefore :=
    ⟨fun a b c hab hbc => pkgKeyCmp_law.le_trans hab hbc⟩
  simp only [fetch_version_latest]
  have hperm := List.perm_insertionSort pkgBefore
    (data.filter fun i => pred i.name)
  have hsorted : (List.insertionSort pkgBefore
      (data.filter fun i => pred i.name)).Pairwise pkgBefore :=
    List.sorted_insertionSort pkgBefore (data.filter fun i => pred i.name)
  have hmem : ∀ r : RawPkg,
      r ∈ List.insertionSort pkgBefore (data.filter fun i => pred i.name) ↔
        (r ∈ data ∧ pred r.name = true) := by
    intro r
    rw [hperm.mem_iff, List.mem_filter]
  refine ⟨buildLatest_nodup _, ?_, ?_⟩
  · intro n
    rw [buildLatest_names]
    constructor
    · rintro ⟨r, hr, hrn⟩
      rw [hmem r] at hr
      exact ⟨r, hr.1, hr.2, hrn⟩
    · rintro ⟨r, hr, hp, hrn⟩
      exact ⟨r, (hmem r).mpr ⟨hr, hp⟩, hrn⟩
  · intro n v hv
    obtain ⟨⟨r0, hr0, hr0n, hr0k⟩, hmax⟩ := buildLatest_max _ hsorted n v hv
    rw [hmem r0] at hr0
    refine ⟨⟨r0, hr0.1, hr0.2, hr0n, hr0k⟩, ?_⟩
    intro r hr hp hrn
    exact hmax r ((hmem r).mpr ⟨hr, hp⟩) hrn

/-- Claim C1: for every product, query term and match predicate,
`fetch_version` returns exactly one resolved package per distinct package
name among the raw records whose name satisfies the predicate, and that
package's VersionKey is the maximal VersionKey among all matching raw
records with that name, regardless of the order in which records arrive or
of ties between equal VersionKeys: (1) the surviving names are pairwise
distinct, (2) they are exactly the names of matching records, (3) each
surviving VersionKey is the key of a matching record with that name and no
matching record with that name compares strictly greater. -/
theorem claim_C1 (pred : List Char → Bool) (data : List RawPkg) :
    ((fetch_version_latest pred data).map Prod.fst).Nodup
    ∧ (∀ n, (∃ v, (n, v) ∈ fetch_version_latest pred data) ↔
        ∃ r ∈ data, pred r.name = true ∧ r.name = n)
    ∧ (∀ n v, (n, v) ∈ fetch_version_latest pred data →
        (∃ r ∈ data, pred r.name = true ∧ r.name = n ∧ r.key = v)
        ∧ ∀ r ∈ data, pred r.name = true → r.name = n →
            rpmCompare r.key v ≠ .gt) :=
  fetch_version_spec pred data

/-- Witness for claim C1: on the two bash records of the spec's end-to-end
example, the surviving VersionKey 5.2-1.1 is not exceeded by the record
5.1-9.1. -/
theorem claim_C1_witness :
    rpmCompare (RawPkg.key ⟨"bash".data, "5.1".data, "9.1".data⟩)
      ⟨"5.2".data, "1.1".data⟩ ≠ .gt :=
  ((claim_C1 (fun _ => true)
      [⟨"bash".data, "5.2".data, "1.1".data⟩,
       ⟨"bash".data, "5.1".data, "9.1".data⟩]).2.2 "bash".data
      ⟨"5.2".data, "1.1".data⟩ (by decide)).2
    ⟨"bash".data, "5.1".data, "9.1".data⟩ (by decide) rfl rfl

/-- Counterexample to claim C3: the compiled predicate for the plain term
"foo", as `fetch_version` applies it through `regex.match`, does not match
"somefoo" — `re.match` anchors at the start of the name, so the predicate is
anchored at both ends, not only at the end. -/
theorem claim_C3_counterexample :
    get_regex "foo".data false false =
      some ("foo".data.map RItem.lit ++ [RItem.endAnchor])
    ∧ reMatch false ("foo".data.map RItem.lit ++ [RItem.endAnchor])
        "somefoo".data = false
    ∧ reMatch false ("foo".data.map RItem.lit ++ [RItem.endAnchor])
        "foo".data = true := by
  decide

/-- Claim C3 as amended: for a non-regex, non-glob search term made of plain
characters, the compiled matching predicate as `fetch_version` applies it
(`re.match`, anchored at the start, plus the appended `$`, anchored at the
end) matches exactly the literal term — "foo" matches "foo" but neither
"somefoo" nor "foobar"; the glob half of the claim is unchanged:
compile("foo*") matches "foobar" and not "barfoo". -/
theorem claim_C3_amended :
    (∀ pat name : List Char,
      (pat.any (fun c => c = '[' ∨ c = '?' ∨ c = '*')) = false →
      (∀ c ∈ pat, reLit c = some (RItem.lit c)) →
      ∀ items, get_regex pat false false = some items →
        (reMatch false items name = true ↔ name = pat))
    ∧ get_regex "foo*".data false false =
        some ("foo".data.map RItem.lit ++ [RItem.dotStar, RItem.endAnchor])
    ∧ reMatch false ("foo".data.map RItem.lit ++ [RItem.dotStar,
        RItem.endAnchor]) "foobar".data = true
    ∧ reMatch false ("foo".data.map RItem.lit ++ [RItem.dotStar,
        RItem.endAnchor]) "barfoo".data = false := by
  refine ⟨?_, by decide, by decide, by decide⟩
  intro pat name hglob hplain items hc
  have hmo : ∀ l : List Char, (∀ c ∈ l, reLit c = some (RItem.lit c)) →
      mapOpt reLit l = some (l.map RItem.lit) := by
    intro l
    induction l with
    | nil => intro _; rfl
    | cons c cs ih =>
      intro hall
      have h1 := hall c (by simp)
      have h2 := ih (fun d hd => hall d (by simp [hd]))
      simp [mapOpt, h1, h2]
  rw [get_regex, if_neg (by simp),
    if_neg (by rw [hglob]; exact Bool.false_ne_true),
    hmo pat hplain] at hc
  simp only [Option.map] at hc
  injection hc with hc
  subst hc
  clear hglob hplain
  induction pat generalizing name with
  | nil =>
    cases name with
    | nil => simp [reMatch]
    | cons d ds => simp [reMatch]
  | cons c cs ih =>
    cases name with
    | nil =>
      simp [reMatch]
    | cons d ds =>
      show ((c == d) &&
          reMatch false (List.map RItem.lit cs ++ [RItem.endAnchor]) ds) = true
        ↔ d :: ds = c :: cs
      rw [Bool.and_eq_true, beq_iff_eq, List.cons.injEq]
      constructor
      · rintro ⟨h1, h2⟩
        exact ⟨h1.symm, (ih ds).mp h2⟩
      · rintro ⟨h1, h2⟩
        exact ⟨h1.symm, (ih ds).mpr h2⟩

/-- Witness for the amended claim C3: applied to the term "foo" and the name
"foo". -/
theorem claim_C3_witness :
    reMatch false ("foo".data.map RItem.lit ++ [RItem.endAnchor])
      "foo".data = true :=
  (claim_C3_amended.1 "foo".data "foo".data (by decide) (by decide)
    ("foo".data.map RItem.lit ++ [RItem.endAnchor]) (by decide)).mpr rfl

/-- Counterexample to claim C4: with the well-formed record
"bash-5.2-1.1.x86_64.rpm" and the malformed record "bad.rpm" in one batch,
the list comprehension in `fetch_version` raises, so the whole batch is lost
(`none`) — the well-formed record's parse does not survive, although on its
own it parses fine. -/
theorem claim_C4_counterexample :
    mapOpt opensuse_package_info
      ["bash-5.2-1.1.x86_64.rpm".data, "bad.rpm".data] = none
    ∧ opensuse_package_info "bash-5.2-1.1.x86_64.rpm".data =
        some ⟨"bash".data, "5.2".data, "1.1".data⟩
    ∧ opensuse_package_info "bad.rpm".data = none := by
  decide

/-- Claim C4 as amended: a malformed filename aborts the whole batch for its
product — `fetch_version`'s comprehension returns no record of that batch,
well-formed records included — and this is the only failure: when every
filename in the batch parses, the batch yields every parsed
{name, version, release} record.  (The per-product error is then reported as
a diagnostic by `print_version`, so only that product's contribution is
lost.) -/
theorem claim_C4_amended (records : List (List Char)) :
    (∀ bad ∈ records, opensuse_package_info bad = none →
      mapOpt opensuse_package_info records = none)
    ∧ ((∀ r ∈ records, opensuse_package_info r ≠ none) →
      mapOpt opensuse_package_info records =
        some (records.filterMap opensuse_package_info)) := by
  induction records with
  | nil =>
    constructor
    · rintro bad ⟨⟩
    · intro _
      rfl
  | cons r rs ih =>
    constructor
    · intro bad hbad hnone
      rcases List.mem_cons.mp hbad with rfl | hmem
      · simp [mapOpt, hnone]
      · cases hr : opensuse_package_info r
        · simp [mapOpt, hr]
        · simp [mapOpt, hr, ih.1 bad hmem hnone]
    · intro hall
      cases hrv : opensuse_package_info r with
      | none => exact absurd hrv (hall r (by simp))
      | some v =>
        have hrest := ih.2 (fun x hx => hall x (by simp [hx]))
        simp [mapOpt, hrv, hrest, List.filterMap_cons]

/-- Witness for the amended claim C4: an all-well-formed batch of one record
parses in full. -/
theorem claim_C4_witness :
    mapOpt opensuse_package_info ["bash-5.2-1.1.x86_64.rpm".data] =
      some [⟨"bash".data, "5.2".data, "1.1".data⟩] := by
  have h := (claim_C4_amended ["bash-5.2-1.1.x86_64.rpm".data]).2 (by decide)
  rw [h]
  decide

theorem collectLoop_spec (pred : List Char → Bool) :
    ∀ (outs : List (List Char × Outcome)) (pkgs : List Package)
      (errs : List (List Char)),
      collectLoop pred outs pkgs errs =
        (pkgs ++ outs.flatMap (fun po =>
          match po.2 with
          | Outcome.ok data => fetch_version po.1 pred data
          | _ => []),
         errs ++ outs.filterMap (fun po =>
          match po.2 with
          | Outcome.failure msg => some ("ERROR: ".data ++ msg)
          | _ => none)) := by
  intro outs
  induction outs with
  | nil =>
    intro pkgs errs
    simp [collectLoop]
  | cons po rest ih =>
    intro pkgs errs
    obtain ⟨p, o⟩ := po
    cases o with
    | ok data =>
      simp [collectLoop, ih, List.append_assoc]
    | transient =>
      simp [collectLoop, ih]
    | failure msg =>
      simp [collectLoop, ih, List.append_assoc]

theorem print_version_eq (pred : List Char → Bool)
    (backend : List Char → Outcome) (products : List (List Char))
    (hne : products ≠ []) :
    print_version pred backend products =
      some (products.flatMap (fun p =>
          match backend p with
          | Outcome.ok data => fetch_version p pred data
          | _ => []),
        products.filterMap (fun p =>
          match backend p with
          | Outcome.failure msg => some ("ERROR: ".data ++ msg)
          | _ => none)) := by
  have hlen : products.length ≠ 0 := fun h => hne (List.length_eq_zero.mp h)
  rw [print_version, if_neg (by omega), collectLoop_spec]
  simp only [List.nil_append]
  rw [List.flatMap_map, List.filterMap_map]
  rfl

/-- Claim C5: in `print_version`, a per-product task failing with a
transient network error contributes zero packages and no diagnostic; a task
failing with any other exception contributes zero packages and exactly one
`ERROR:` diagnostic line; no sibling task is aborted and the call returns
the successful products' packages in product-submission order. -/
theorem claim_C5 (pred : List Char → Bool) (backend : List Char → Outcome)
    (products : List (List Char)) (hne : products ≠ []) :
    print_version pred backend products =
      some (products.flatMap (fun p =>
          match backend p with
          | Outcome.ok data => fetch_version p pred data
          | _ => []),
        products.filterMap (fun p =>
          match backend p with
          | Outcome.failure msg => some ("ERROR: ".data ++ msg)
          | _ => none)) :=
  print_version_eq pred backend products hne

/-- Witness for claim C5: with one success, one transient failure and one
other failure, the call returns the success's row and one diagnostic. -/
theorem claim_C5_witness :
    print_version (fun _ => true) backendW
      ["A".data, "B".data, "C".data] =
      some ([⟨"bash".data, "A".data, ⟨"5.2".data, "1.1".data⟩⟩],
        ["ERROR: boom".data]) := by
  rw [claim_C5 (fun _ => true) backendW ["A".data, "B".data, "C".data]
    (by decide)]
  decide

/-- Claim C10: `print_version` invoked with an empty product list errors
rather than returning an empty result — the pool size `min(10, 0) = 0` is
rejected by the `ThreadPoolExecutor` constructor — and the empty list is
reachable from the public interface: with the lone selector "any" and an
empty fetched catalog, `main` passes the whole (empty) catalog to
`print_version`. -/
theorem claim_C10 :
    main_products ["any".data] [] = some []
    ∧ min 10 (List.length ([] : List (List Char))) = 0
    ∧ ∀ (pred : List Char → Bool) (backend : List Char → Outcome),
        print_version pred backend [] = none := by
  exact ⟨rfl, rfl, fun pred backend => rfl⟩

/-! ## Claim C9: uniqueness and size of the collected result -/

theorem length_flatMap_le {α β : Type _} (l : List α) (f : α → List β)
    (B : Nat) (h : ∀ p ∈ l, (f p).length ≤ B) :
    (l.flatMap f).length ≤ l.length * B := by
  induction l with
  | nil => simp
  | cons p ps ih =>
    rw [List.flatMap_cons, List.length_append]
    calc (f p).length + (ps.flatMap f).length
        ≤ B + ps.length * B :=
          Nat.add_le_add (h p (by simp)) (ih fun q hq => h q (by simp [hq]))
      _ = (p :: ps).length * B := by
          rw [List.length_cons, Nat.succ_mul, Nat.add_comm]

theorem nodup_length_le_dedup {α : Type _} [DecidableEq α] (l m : List α)
    (hn : l.Nodup) (hsub : l ⊆ m) : l.length ≤ m.dedup.length := by
  calc l.length = l.toFinset.card := (List.toFinset_card_of_nodup hn).symm
    _ ≤ m.toFinset.card := Finset.card_le_card fun a ha => by
        rw [List.mem_toFinset] at ha ⊢
        exact hsub ha
    _ = m.dedup.length := List.card_toFinset m

theorem fetch_version_names_nodup (p : List Char) (pred : List Char → Bool)
    (data : List RawPkg) :
    ((fetch_version p pred data).map Package.name).Nodup := by
  have he : (fetch_version p pred data).map Package.name
      = (fetch_version_latest pred data).map Prod.fst := by
    rw [fetch_version, List.map_map]
    rfl
  rw [he]
  exact buildLatest_nodup _

theorem fetch_version_mem (p : List Char) (pred : List Char → Bool)
    (data : List RawPkg) (pkg : Package)
    (h : pkg ∈ fetch_version p pred data) :
    pkg.product = removePre "openSUSE_".data p
    ∧ ∃ r ∈ data, pred r.name = true ∧ r.name = pkg.name := by
  simp only [fetch_version, List.mem_map] at h
  obtain ⟨nv, hnv, rfl⟩ := h
  refine ⟨rfl, ?_⟩
  exact ((fetch_version_spec pred data).2.1 nv.1).mp ⟨nv.2, hnv⟩

/-- Counterexample to claim C9: `main` can hand `print_version` a product
list with a repeated product (two selectors both resolving to the same
catalog entry), and the collected result then contains the same
(product, name) pair twice. -/
theorem claim_C9_counterexample :
    print_version (fun _ => true)
      (fun _ => Outcome.ok [⟨"bash".data, "5.2".data, "1.1".data⟩])
      ["SLES/15.5".data, "SLES/15.5".data] =
      some ([⟨"bash".data, "SLES/15.5".data, ⟨"5.2".data, "1.1".data⟩⟩,
             ⟨"bash".data, "SLES/15.5".data, ⟨"5.2".data, "1.1".data⟩⟩], [])
    ∧ ¬ ([(⟨"bash".data, "SLES/15.5".data, ⟨"5.2".data, "1.1".data⟩⟩ :
            Package),
          ⟨"bash".data, "SLES/15.5".data, ⟨"5.2".data, "1.1".data⟩⟩].Pairwise
          fun a b => ¬(a.product = b.product ∧ a.name = b.name)) := by
  constructor
  · decide
  · decide

/-- Claim C9 as amended: for every product list whose display names (after
community-prefix stripping) are pairwise distinct, the collected result of
`print_version` contains no two entries with the same (product display name,
package name) pair, and its length is at most the number of products times
the number of distinct package names returned by the backends. -/
theorem claim_C9_amended (pred : List Char → Bool)
    (backend : List Char → Outcome) (products : List (List Char))
    (hne : products ≠ [])
    (hnd : (products.map (removePre "openSUSE_".data)).Nodup) :
    ∃ pkgs errs, print_version pred backend products = some (pkgs, errs)
      ∧ pkgs.Pairwise (fun a b => ¬(a.product = b.product ∧ a.name = b.name))
      ∧ pkgs.length ≤ products.length *
          ((products.flatMap fun p =>
            match backend p with
            | Outcome.ok data => data.map RawPkg.name
            | _ => []).dedup).length := by
  refine ⟨_, _, print_version_eq pred backend products hne, ?_, ?_⟩
  · rw [List.flatMap_def, List.pairwise_flatten]
    constructor
    · intro l hl
      obtain ⟨p, hp, rfl⟩ := List.mem_map.mp hl
      cases hb : backend p with
      | ok data =>
        simp only [hb]
        have hnn := fetch_version_names_nodup p pred data
        have := List.pairwise_map.mp hnn
        exact this.imp fun hne' hand => hne' hand.2
      | transient => simp [hb]
      | failure msg => simp [hb]
    · rw [List.pairwise_map]
      have hpw : products.Pairwise (fun p q =>
          removePre "openSUSE_".data p ≠ removePre "openSUSE_".data q) :=
        List.pairwise_map.mp hnd
      refine hpw.imp ?_
      intro p q hpq x hx y hy hand
      apply hpq
      cases hbp : backend p with
      | ok data =>
        cases hbq : backend q with
        | ok dataq =>
          rw [hbp] at hx
          rw [hbq] at hy
          have hxp := (fetch_version_mem p pred data x hx).1
          have hyq := (fetch_version_mem q pred dataq y hy).1
          rw [← hxp, ← hyq]
          exact hand.1
        | transient => rw [hbq] at hy; exact absurd hy (List.not_mem_nil y)
        | failure m => rw [hbq] at hy; exact absurd hy (List.not_mem_nil y)
      | transient => rw [hbp] at hx; exact absurd hx (List.not_mem_nil x)
      | failure m => rw [hbp] at hx; exact absurd hx (List.not_mem_nil x)
  · apply length_flatMap_le
    intro p hp
    cases hb : backend p with
    | transient => simp
    | failure m => simp
    | ok data =>
      simp only []
      have hlen : (fetch_version p pred data).length =
          ((fetch_version_latest pred data).map Prod.fst).length := by
        rw [fetch_version, List.length_map, List.length_map]
      rw [hlen]
      apply nodup_length_le_dedup _ _ (buildLatest_nodup _)
      intro n hn
      obtain ⟨nv, hnv, rfl⟩ := List.mem_map.mp hn
      obtain ⟨r, hr, hpred, hrn⟩ :=
        ((fetch_version_spec pred data).2.1 nv.1).mp ⟨nv.2, hnv⟩
      apply List.mem_flatMap.mpr
      refine ⟨p, hp, ?_⟩
      rw [hb]
      rw [← hrn]
      exact List.mem_map_of_mem RawPkg.name hr

/-- Witness for the amended claim C9: three distinct products with mixed
outcomes yield a defined result. -/
theorem claim_C9_witness :
    (print_version (fun _ => true) backendW
      ["A".data, "B".data, "C".data]).isSome = true := by
  obtain ⟨pkgs, errs, heq, -, -⟩ :=
    claim_C9_amended (fun _ => true) backendW
      ["A".data, "B".data, "C".data] (by decide) (by decide)
  rw [heq]
  rfl

theorem product_string_eval (s p v : List Char)
    (hs : (s == "Leap".data || s == "Leap_Micro".data ||
      s == "Tumbleweed".data) = false)
    (h2 : (!(hasSub "Micro".data s) || hasSub "Leap".data s) = false)
    (hsplit : splitFirst '/' s = some (p, v)) :
    product_string s =
      match v with
      | [] => some s
      | c :: _ =>
        match charToInt c with
        | none => none
        | some d =>
          if d > 5 then some ("SL-Micro/".data ++ v)
          else
            match splitFirst '.' v with
            | none => none
            | some (_, minorStr) =>
              match pyInt minorStr with
              | none => none
              | some sub =>
                if sub > 2 then some ("SLE-Micro/".data ++ v)
                else some ("SUSE-MicroOS/".data ++ v) := by
  rw [product_string, if_neg (by rw [hs]; exact Bool.false_ne_true),
    if_neg (by rw [h2]; exact Bool.false_ne_true)]
  simp only [hsplit]
  cases v with
  | nil => rfl
  | cons c tail => rfl

/-- Counterexample to claim C6: `product_string` raises on the Micro product
string "SLE-Micro/5" (version with no minor component — the
`version.split(".", 1)[1]` indexing sits outside the `try` block) and on
"SLE-Micro/x.1" (non-numeric version — `int` raises `ValueError`, which is
never caught), instead of returning a string. -/
theorem claim_C6_counterexample :
    product_string "SLE-Micro/5".data = none
    ∧ product_string "SLE-Micro/x.1".data = none := by
  decide

/-- Claim C6 as amended: `product_string` returns a string on every input
except the Micro-family strings (containing "Micro", not "Leap", not a
community short name) with a "/" and a non-empty version suffix that is
malformed in one of exactly three ways — non-digit first character, or
first digit at most 5 with no "." in the suffix, or first digit at most 5
with a minor part that is not an integer literal; a missing "/" or an empty
version falls back to passthrough, and inputs not matching any special case
are returned unchanged. -/
theorem claim_C6_amended :
    (∀ s : List Char,
      (s == "Leap".data || s == "Leap_Micro".data ||
        s == "Tumbleweed".data) = false →
      (!(hasSub "Micro".data s) || hasSub "Leap".data s) = true →
      product_string s = some s)
    ∧ (∀ s : List Char,
      (s == "Leap".data || s == "Leap_Micro".data ||
        s == "Tumbleweed".data) = false →
      (!(hasSub "Micro".data s) || hasSub "Leap".data s) = false →
      splitFirst '/' s = none →
      product_string s = some s)
    ∧ (∀ s p : List Char,
      (s == "Leap".data || s == "Leap_Micro".data ||
        s == "Tumbleweed".data) = false →
      (!(hasSub "Micro".data s) || hasSub "Leap".data s) = false →
      splitFirst '/' s = some (p, []) →
      product_string s = some s)
    ∧ (∀ (s p : List Char) (c : Char) (vrest : List Char),
      (s == "Leap".data || s == "Leap_Micro".data ||
        s == "Tumbleweed".data) = false →
      (!(hasSub "Micro".data s) || hasSub "Leap".data s) = false →
      splitFirst '/' s = some (p, c :: vrest) →
      charToInt c = none →
      product_string s = none)
    ∧ (∀ (s p : List Char) (c : Char) (vrest : List Char) (d : Nat),
      (s == "Leap".data || s == "Leap_Micro".data ||
        s == "Tumbleweed".data) = false →
      (!(hasSub "Micro".data s) || hasSub "Leap".data s) = false →
      splitFirst '/' s = some (p, c :: vrest) →
      charToInt c = some d → d ≤ 5 →
      splitFirst '.' (c :: vrest) = none →
      product_string s = none)
    ∧ (∀ (s p : List Char) (c : Char) (vrest : List Char) (d : Nat)
        (m mrest : List Char),
      (s == "Leap".data || s == "Leap_Micro".data ||
        s == "Tumbleweed".data) = false →
      (!(hasSub "Micro".data s) || hasSub "Leap".data s) = false →
      splitFirst '/' s = some (p, c :: vrest) →
      charToInt c = some d → d ≤ 5 →
      splitFirst '.' (c :: vrest) = some (m, mrest) →
      pyInt mrest = none →
      product_string s = none)
    ∧ (∀ (s p : List Char) (c : Char) (vrest : List Char) (d : Nat),
      (s == "Leap".data || s == "Leap_Micro".data ||
        s == "Tumbleweed".data) = false →
      (!(hasSub "Micro".data s) || hasSub "Leap".data s) = false →
      splitFirst '/' s = some (p, c :: vrest) →
      charToInt c = some d → d > 5 →
      (product_string s).isSome = true)
    ∧ (∀ (s p : List Char) (c : Char) (vrest : List Char) (d : Nat)
        (m mrest : List Char) (sub : Int),
      (s == "Leap".data || s == "Leap_Micro".data ||
        s == "Tumbleweed".data) = false →
      (!(hasSub "Micro".data s) || hasSub "Leap".data s) = false →
      splitFirst '/' s = some (p, c :: vrest) →
      charToInt c = some d → d ≤ 5 →
      splitFirst '.' (c :: vrest) = some (m, mrest) →
      pyInt mrest = some sub →
      (product_string s).isSome = true) := by
  refine ⟨?_, ?_, ?_, ?_, ?_, ?_, ?_, ?_⟩
  · intro s hs h2
    rw [product_string, if_neg (by rw [hs]; exact Bool.false_ne_true),
      if_pos h2]
  · intro s hs h2 hsplit
    rw [product_string, if_neg (by rw [hs]; exact Bool.false_ne_true),
      if_neg (by rw [h2]; exact Bool.false_ne_true), hsplit]
  · intro s p hs h2 hsplit
    rw [product_string_eval s p [] hs h2 hsplit]
  · intro s p c vrest hs h2 hsplit hchar
    rw [product_string_eval s p (c :: vrest) hs h2 hsplit]
    simp only [hchar]
  · intro s p c vrest d hs h2 hsplit hchar hd hdot
    rw [product_string_eval s p (c :: vrest) hs h2 hsplit]
    simp only [hchar, hdot]
    rw [if_neg (by omega)]
  · intro s p c vrest d m mrest hs h2 hsplit hchar hd hdot hint
    rw [product_string_eval s p (c :: vrest) hs h2 hsplit]
    simp only [hchar, hdot, hint]
    rw [if_neg (by omega)]
  · intro s p c vrest d hs h2 hsplit hchar hd
    rw [product_string_eval s p (c :: vrest) hs h2 hsplit]
    simp only [hchar]
    rw [if_pos hd]
    rfl
  · intro s p c vrest d m mrest sub hs h2 hsplit hchar hd hdot hint
    rw [product_string_eval s p (c :: vrest) hs h2 hsplit]
    simp only [hchar, hdot, hint]
    rw [if_neg (by omega)]
    split <;> rfl

/-- Witness for the amended claim C6: a non-Micro product string passes
through unchanged. -/
theorem claim_C6_witness :
    product_string "SLES/15.5".data = some "SLES/15.5".data :=
  claim_C6_amended.1 "SLES/15.5".data (by decide) (by decide)

/-- Counterexample to claim C7: for "SLE-Micro/10.0" the numeric major 10
exceeds 5, so the claim requires "SL-Micro/10.0"; the code tests only
`int(version[0])`, the first character, so 1 is not greater than 5 and the
minor 0 sends it to "SUSE-MicroOS/10.0". -/
theorem claim_C7_counterexample :
    product_string "SLE-Micro/10.0".data = some "SUSE-MicroOS/10.0".data
    ∧ (10 : Nat) > 5
    ∧ "SUSE-MicroOS/10.0".data ≠ "SL-Micro/10.0".data := by
  decide

/-- Claim C7 as amended: for every Micro-family product string with a
version suffix, the deterministic mapping to exactly one of the three
family names is keyed on the first digit of the version (not the numeric
major): first digit > 5 gives "SL-Micro/<ver>", otherwise minor ≤ 2 gives
"SUSE-MicroOS/<ver>" and minor > 2 gives "SLE-Micro/<ver>"; "Leap" maps to
"openSUSE_Leap", "SUSE-MicroOS/6.3" to "SL-Micro/6.3", and "SLE-Micro/5.1"
to "SUSE-MicroOS/5.1". -/
theorem claim_C7_amended :
    (∀ (s p : List Char) (c : Char) (vrest : List Char) (d : Nat),
      (s == "Leap".data || s == "Leap_Micro".data ||
        s == "Tumbleweed".data) = false →
      (!(hasSub "Micro".data s) || hasSub "Leap".data s) = false →
      splitFirst '/' s = some (p, c :: vrest) →
      charToInt c = some d →
      (d > 5 →
        product_string s = some ("SL-Micro/".data ++ c :: vrest))
      ∧ (∀ (m mrest : List Char) (sub : Int), d ≤ 5 →
          splitFirst '.' (c :: vrest) = some (m, mrest) →
          pyInt mrest = some sub →
          (sub > 2 →
            product_string s = some ("SLE-Micro/".data ++ c :: vrest))
          ∧ (sub ≤ 2 →
            product_string s = some ("SUSE-MicroOS/".data ++ c :: vrest))))
    ∧ product_string "Leap".data = some "openSUSE_Leap".data
    ∧ product_string "SUSE-MicroOS/6.3".data = some "SL-Micro/6.3".data
    ∧ product_string "SLE-Micro/5.1".data = some "SUSE-MicroOS/5.1".data := by
  refine ⟨?_, by decide, by decide, by decide⟩
  intro s p c vrest d hs h2 hsplit hchar
  constructor
  · intro hd
    rw [product_string_eval s p (c :: vrest) hs h2 hsplit]
    simp only [hchar]
    rw [if_pos hd]
  · intro m mrest sub hd hdot hint
    constructor
    · intro hsub
      rw [product_string_eval s p (c :: vrest) hs h2 hsplit]
      simp only [hchar, hdot, hint]
      rw [if_neg (by omega), if_pos hsub]
    · intro hsub
      rw [product_string_eval s p (c :: vrest) hs h2 hsplit]
      simp only [hchar, hdot, hint]
      rw [if_neg (by omega), if_neg (by omega)]

/-- Witness for the amended claim C7: "SLE-Micro/6.0" has first digit 6 > 5
and maps to the SL-Micro family. -/
theorem claim_C7_witness :
    product_string "SLE-Micro/6.0".data =
      some ("SL-Micro/".data ++ '6' :: ".0".data) :=
  (claim_C7_amended.1 "SLE-Micro/6.0".data "SLE-Micro".data '6' ".0".data 6
    (by decide) (by decide) (by decide) (by decide)).1 (by decide)

theorem tripleCmp_law : LawCmp tripleCmp :=
  thenCmp_law natCmp_law
    (thenCmp_law natCmp_law natCmp_law Prod.fst Prod.snd) Prod.fst Prod.snd

theorem sumCmp_law : LawCmp sumCmp := by
  have hs := strCmp_law
  have ht := tripleCmp_law
  constructor
  · intro a b
    cases a <;> cases b <;>
      first
        | rfl
        | exact hs.swap _ _
        | exact ht.swap _ _
  · intro a b c h1 h2
    cases a <;> cases b <;> cases c <;>
      first
        | rfl
        | exact hs.lt_trans h1 h2
        | exact ht.lt_trans h1 h2
        | exact Ordering.noConfusion h1
        | exact Ordering.noConfusion h2
  · intro a b c h1 h2
    cases a <;> cases b <;> cases c <;>
      first
        | rfl
        | exact hs.eq_trans h1 h2
        | exact ht.eq_trans h1 h2
        | exact Ordering.noConfusion h1
        | exact Ordering.noConfusion h2
  · intro a b c h1 h2
    cases a <;> cases b <;> cases c <;>
      first
        | rfl
        | exact hs.eq_lt h1 h2
        | exact ht.eq_lt h1 h2
        | exact Ordering.noConfusion h1
        | exact Ordering.noConfusion h2
  · intro a b c h1 h2
    cases a <;> cases b <;> cases c <;>
      first
        | rfl
        | exact hs.lt_eq h1 h2
        | exact ht.lt_eq h1 h2
        | exact Ordering.noConfusion h1
        | exact Ordering.noConfusion h2

theorem prodKeyCmp_law : LawCmp prodKeyCmp :=
  sumCmp_law.comap prodKey

/-- Counterexample to claim C8: with one SLES product and one SUSE-MicroOS
product for the architecture, `get_products` lists the micro product after
the other enterprise product, not ahead of it — `product_sort_key` tags
micro names with a leading 1 and everything else with a leading 0, and
Python sorts ascending. -/
theorem claim_C8_counterexample :
    get_products
      [⟨"SLES/15.6/x86_64".data, "x86_64".data, 1⟩,
       ⟨"SUSE-MicroOS/5.2/x86_64".data, "x86_64".data, 2⟩]
      [] "x86_64".data
      = ["SLES/15.6".data, "SUSE-MicroOS/5.2".data]
    ∧ microKey "SLES/15.6".data = none
    ∧ (microKey "SUSE-MicroOS/5.2".data).isSome = true := by
  decide

/-- Claim C8 as amended: in the sequence returned by `get_products`, the
enterprise products come first, sorted by `product_sort_key` — which places
the recognized micro-edition families, grouped by family and ordered by
(major, minor) numeric version within each family, behind all other
enterprise products, those being ordered by display name — and the
community-backend products follow at the end, sorted by display name. -/
theorem claim_C8_amended (suse : List SuseRec) (opensuse : List OSRec)
    (arch : List Char) :
    ∃ ent com,
      get_products suse opensuse arch = ent ++ com
      ∧ List.Perm ent ((suse.filter fun p =>
          p.architecture == arch
          && PRODUCTS.any (fun pre => pre.isPrefixOf p.identifier)
          && !(EOL.contains (removeSuf (['/'] ++ arch) p.identifier))).map
            (fun p => removeSuf (['/'] ++ arch) p.identifier))
      ∧ List.Perm com (opensuse.map (fun p =>
          if p.name == "openSUSE_Tumbleweed".data then p.name
          else p.name ++ ['/'] ++ p.version))
      ∧ ent.Pairwise prodBefore
      ∧ com.Pairwise strBefore
      ∧ (∀ a b : List Char, microKey a = none → (microKey b).isSome = true →
          prodKeyCmp a b = .lt) := by
  refine ⟨_, _, rfl, List.perm_insertionSort _ _,
    List.perm_insertionSort _ _, ?_, ?_, ?_⟩
  · haveI : IsTotal (List Char) prodBefore :=
      ⟨fun a b => prodKeyCmp_law.le_total a b⟩
    haveI : IsTrans (List Char) prodBefore :=
      ⟨fun a b c h1 h2 => prodKeyCmp_law.le_trans h1 h2⟩
    exact List.sorted_insertionSort prodBefore _
  · haveI : IsTotal (List Char) strBefore :=
      ⟨fun a b => strCmp_law.le_total a b⟩
    haveI : IsTrans (List Char) strBefore :=
      ⟨fun a b c h1 h2 => strCmp_law.le_trans h1 h2⟩
    exact List.sorted_insertionSort strBefore _
  · intro a b ha hb
    obtain ⟨k, hk⟩ := Option.isSome_iff_exists.mp hb
    unfold prodKeyCmp prodKey
    rw [ha, hk]
    rfl

/-- Witness for the amended claim C8: a non-micro name sorts strictly before
a micro name. -/
theorem claim_C8_witness :
    prodKeyCmp "SLES/15.6".data "SUSE-MicroOS/5.2".data = .lt := by
  obtain ⟨ent, com, -, -, -, -, -, hkey⟩ :=
    claim_C8_amended [] [] "x86_64".data
  exact hkey _ _ (by decide) (by decide)

end Susepkg
